import Mathlib

/-!
# Verification of `question_randomizer.py`

A shallow embedding of the core of the question-randomizer program
(`src/question_randomizer.py`) together with proofs about it.

Text is modelled as `List Char`.  The program's regular expressions are
fixed literal-marker patterns; each one is embedded as an explicit scan
over the character list, following the semantics of Python's `re` engine
on that concrete pattern (leftmost match, non-greedy `.*?` as shortest
extension, greedy `\s+`/`\s*`/`\d+` runs followed by a literal that cannot
occur inside the run, so backtracking is vacuous).  Python's `\s` and
`str.strip` act on Unicode whitespace; the documents are ASCII LaTeX, so
whitespace is modelled by the six ASCII whitespace characters.

Randomness (`random.shuffle`, `random.sample`, `random.randint`) is
modelled by oracle parameters: a shuffle is an arbitrary function assumed
to return a permutation of its input, a sample is an arbitrary function
assumed to return `n` of the list's elements without repetition
(`List.Subperm`), and `random.randint(0, n)` is an arbitrary natural
number assumed `≤ n`.  "For every outcome of the random choices" becomes
universal quantification over these oracles.
-/

namespace QRand

/-- The six ASCII characters matched by Python's `\s` (documents are ASCII). -/
def pyIsSpace (c : Char) : Bool :=
  c = ' ' || c = '\t' || c = '\n' || c = '\r' || c = '\x0b' || c = '\x0c'

/-- Python `str.strip()`: remove leading and trailing whitespace. -/
def stripChars (l : List Char) : List Char :=
  ((l.dropWhile pyIsSpace).reverse.dropWhile pyIsSpace).reverse

/-- Index of the first occurrence of `pat` as a contiguous substring
(Python `str.find` / leftmost `re` match of a literal pattern). -/
def findSub (pat : List Char) : List Char → Option Nat
  | [] => if pat.isEmpty then some 0 else none
  | s@(_ :: rest) =>
    if pat.isPrefixOf s then some 0 else (findSub pat rest).map (· + 1)

/-- Python's `pat in s` substring test. -/
def containsSub (pat s : List Char) : Bool :=
  (findSub pat s).isSome

/-- Scanner for Python `str.replace(pat, rep)`.  In state `skip + 1` the
next character belongs to an occurrence already replaced and is consumed
silently; in state `0` the scanner either starts a replacement (emitting
`rep` and entering skip state for the rest of the occurrence) or copies
one character.  (Structured this way so the recursion is structural on
the text; `pat` is never empty at the call sites, the guard only keeps
the empty pattern from looping.) -/
def pyReplaceGo (pat rep : List Char) : Nat → List Char → List Char
  | _ + 1, [] => []
  | skip + 1, _ :: rest => pyReplaceGo pat rep skip rest
  | 0, [] => []
  | 0, c :: rest =>
    if pat ≠ [] ∧ pat.isPrefixOf (c :: rest) then
      rep ++ pyReplaceGo pat rep (pat.length - 1) rest
    else
      c :: pyReplaceGo pat rep 0 rest

/-- Python `str.replace(pat, rep)`: replace every non-overlapping
occurrence, scanning left to right. -/
def pyReplace (pat rep : List Char) (s : List Char) : List Char :=
  pyReplaceGo pat rep 0 s

/-- Python `list.insert(pos, x)`: insert at `pos`, appending when `pos`
is past the end (`random.randint(0, len l)` keeps `pos` in range anyway). -/
def pyInsert (pos : Nat) (x : α) : List α → List α
  | [] => [x]
  | y :: ys => if pos = 0 then x :: y :: ys else y :: pyInsert (pos - 1) x ys

/-! ## Markers (the literal tokens of the source's regular expressions) -/

/-- `\begin{answerlist}` -/
def beginAL : List Char := "\\begin\x7banswerlist\x7d".toList

/-- `\end{answerlist}` -/
def endAL : List Char := "\\end\x7banswerlist\x7d".toList

/-- `\ti` (distractor-item marker) -/
def tiTok : List Char := "\\ti".toList

/-- `\di` (correct-item marker) -/
def diTok : List Char := "\\di".toList

/-- The four-space indentation prefix used when reassembling items. -/
def indentTok : List Char := "    ".toList

/-- The canonical default answer-list header used when the original
header line cannot be recovered. -/
def defaultHeader : List Char :=
  ("\\begin\x7banswerlist\x7d[label=\x7b\\texttt\x7b\\Alph*\x7d.\x7d,leftmargin=*]" ++ "\n").toList

/-! ## `Question.is_multiple_choice` and the answer-list span -/

/-- `Question.is_multiple_choice`: the text contains `\begin{answerlist}`
and at least one of the item markers `\ti` / `\di`. -/
def isMultipleChoice (content : List Char) : Bool :=
  containsSub beginAL content &&
    (containsSub tiTok content || containsSub diTok content)

/-- The span `(start, stop)` of `re.search(r'\\begin\{answerlist\}.*?\\end\{answerlist\}', content, re.DOTALL)`:
the leftmost `\begin{answerlist}` extended minimally (non-greedy `.*?`)
to the first following `\end{answerlist}`. -/
def answerlistSpan (content : List Char) : Option (Nat × Nat) :=
  match findSub beginAL content with
  | none => none
  | some i =>
    match findSub endAL (content.drop (i + beginAL.length)) with
    | none => none
    | some k => some (i, i + beginAL.length + k + endAL.length)

/-- The matched answer-list block (`match.group(0)`); `[]` when there is
no match (that case returns the content unchanged before the block is
ever used). -/
def foundBlock (content : List Char) : List Char :=
  match answerlistSpan content with
  | none => []
  | some (i, e) => (content.drop i).take (e - i)

/-! ## Alternative extraction
(`re.findall(r'(\\[td]i\s+.*?)(?=\\[td]i|\s*\\end\{answerlist\})', block, re.DOTALL)`) -/

/-- Length of the leading whitespace run (greedy `\s*` / `\s+`). -/
def wsRun : List Char → Nat
  | [] => 0
  | c :: rest => if pyIsSpace c then wsRun rest + 1 else 0

/-- Does `\ti` or `\di` start here (the regex `\\[td]i`)? -/
def itemTokAt (s : List Char) : Bool :=
  tiTok.isPrefixOf s || diTok.isPrefixOf s

/-- The regex lookahead `(?=\\[td]i|\s*\\end\{answerlist\})`: either an
item marker starts here, or whitespace followed by `\end{answerlist}`
(`\end…` starts with a non-whitespace character, so the `\s*` of the
lookahead necessarily consumes the whole whitespace run). -/
def altBoundary (s : List Char) : Bool :=
  itemTokAt s || endAL.isPrefixOf (s.drop (wsRun s))

/-- Offset of the first position satisfying the lookahead. -/
def findBoundary : List Char → Option Nat
  | [] => none
  | s@(_ :: rest) =>
    if altBoundary s then some 0 else (findBoundary rest).map (· + 1)

/-- The item list extracted from an answer-list block.  An item starts at
`\[td]i` followed by at least one whitespace character (`\s+`); it
extends (lazy `.*?`) to the first position at or after the whitespace run
where the lookahead holds.  Scanning resumes at the end of each match
(the lookahead consumes nothing), and advances one character past any
failed start position, exactly as `re.findall` does. -/
def extractFromAux : Nat → List Char → List (List Char)
  | 0, _ => []
  | _ + 1, [] => []
  | fuel + 1, s@(_ :: rest) =>
    if itemTokAt s ∧ 0 < wsRun (s.drop 3) then
      let w := wsRun (s.drop 3)
      match findBoundary (s.drop (3 + w)) with
      | some m => s.take (3 + w + m) :: extractFromAux fuel (rest.drop (3 + w + m - 1))
      | none => extractFromAux fuel rest
    else
      extractFromAux fuel rest

/-- The extraction scan over a whole block.  Every step consumes at least
one character while fuel decreases by exactly one, so fuel `s.length`
never runs out before the text does (and both exhaust to `[]`). -/
def extractFrom (s : List Char) : List (List Char) :=
  extractFromAux s.length s

/-- Does a (stripped) alternative carry the correct-item marker
(`alt.strip().startswith('\di')`)? -/
def isDiAlt (a : List Char) : Bool :=
  diTok.isPrefixOf (stripChars a)

/-- The partition loop: `gabarito` is reassigned at every `\di`-marked
item (so the last one encountered wins), every other item is appended to
`other_alts` in order. -/
def partitionAlts (alts : List (List Char)) : Option (List Char) × List (List Char) :=
  alts.foldl
    (fun st alt => if isDiAlt alt then (some alt, st.2) else (st.1, st.2 ++ [alt]))
    (none, [])

/-- `re.search(r'\\begin\{answerlist\}[^\n]*\n', block)`: the first
`\begin{answerlist}` whose line is terminated by a newline, together
with the rest of that line. -/
def lineThroughNewline : List Char → Option (List Char)
  | [] => none
  | c :: rest =>
    if c = '\n' then some [c] else (lineThroughNewline rest).map (c :: ·)

/-- Header search inside the matched block. -/
def findHeaderIn : List Char → Option (List Char)
  | [] => none
  | s@(_ :: rest) =>
    if beginAL.isPrefixOf s then
      match lineThroughNewline (s.drop beginAL.length) with
      | some tail => some (beginAL ++ tail)
      | none => findHeaderIn rest
    else
      findHeaderIn rest

/-- The reordered item list: shuffle the non-`\di` items, then insert the
`gabarito` (when present) at the chosen position
(`random.randint(0, len(other_alts))`). -/
def rebuiltItems (shuffle : List (List Char) → List (List Char)) (ip : Nat)
    (alts : List (List Char)) : List (List Char) :=
  let pr := partitionAlts alts
  match pr.1 with
  | some g => pyInsert ip g (shuffle pr.2)
  | none => shuffle pr.2

/-- The reassembled answer-list block: original (or default) header, each
item stripped and emitted on its own indented line, then the end marker. -/
def rebuiltBlock (shuffle : List (List Char) → List (List Char)) (ip : Nat)
    (block : List Char) : List Char :=
  ((findHeaderIn block).getD defaultHeader) ++
    (rebuiltItems shuffle ip (extractFrom block)).flatMap
      (fun a => indentTok ++ stripChars a ++ ['\n']) ++
    endAL

/-- `Question._randomize_alternatives`. -/
def randomizeAlternatives (shuffle : List (List Char) → List (List Char))
    (ip : Nat) (content : List Char) : List Char :=
  match answerlistSpan content with
  | none => content
  | some (i, e) =>
    let block := (content.drop i).take (e - i)
    if extractFrom block = [] then content
    else pyReplace block (rebuiltBlock shuffle ip block) content

/-- `Question.randomize`. -/
def randomize (shuffle : List (List Char) → List (List Char))
    (ip : Nat) (content : List Char) : List Char :=
  if isMultipleChoice content then randomizeAlternatives shuffle ip content
  else content

/-! ## Segmentation (`QuestionFile._load_questions`)

The question-start marker is the regex
`\\needspace\{\d+\\baselineskip\}\s*\\item\s+\\rtask`.  Each greedy run
(`\d+`, `\s*`, `\s+`) is followed by a literal starting with a character
the run cannot contain, so backtracking is vacuous and the match length
is determined by the maximal runs.  `re.finditer` yields non-overlapping
matches scanning left to right; the marker's literal `\needspace{` cannot
reoccur inside a match, so no occurrence is ever skipped. -/

/-- `\needspace{` -/
def needspaceTok : List Char := "\\needspace\x7b".toList

/-- `\baselineskip}` -/
def baselineskipTok : List Char := "\\baselineskip\x7d".toList

/-- `\item` -/
def itemTok : List Char := "\\item".toList

/-- `\rtask` -/
def rtaskTok : List Char := "\\rtask".toList

/-- Length of the leading decimal-digit run (greedy `\d+`). -/
def digitRun : List Char → Nat
  | [] => 0
  | c :: rest => if c.isDigit then digitRun rest + 1 else 0

/-- Length of the question-start-marker match beginning at this suffix,
or `none` if the marker does not match here. -/
def markerMatchLen (s : List Char) : Option Nat :=
  if needspaceTok.isPrefixOf s then
    let s1 := s.drop needspaceTok.length
    let d := digitRun s1
    if d = 0 then none
    else
      let s2 := s1.drop d
      if baselineskipTok.isPrefixOf s2 then
        let s3 := s2.drop baselineskipTok.length
        let w := wsRun s3
        if itemTok.isPrefixOf (s3.drop w) then
          let s4 := s3.drop (w + itemTok.length)
          let w2 := wsRun s4
          if w2 = 0 then none
          else if rtaskTok.isPrefixOf (s4.drop w2) then
            some (needspaceTok.length + d + baselineskipTok.length + w +
              itemTok.length + w2 + rtaskTok.length)
          else none
        else none
      else none
  else none

/-- Start positions of the marker matches (`[m.start() for m in re.finditer …]`),
scanning from `pos`; a successful match of length `len ≥ 1` resumes the
scan after the match. -/
def findMarkersFrom : Nat → Nat → List Char → List Nat
  | 0, _, _ => []
  | _ + 1, _, [] => []
  | fuel + 1, pos, s@(_ :: rest) =>
    match markerMatchLen s with
    | some len => pos :: findMarkersFrom fuel (pos + len) (rest.drop (len - 1))
    | none => findMarkersFrom fuel (pos + 1) rest

/-- All marker start positions in the document.  Every scan step consumes
at least one character while fuel decreases by exactly one, so fuel
`content.length` never runs out before the text does. -/
def findMarkers (content : List Char) : List Nat :=
  findMarkersFrom content.length 0 content

/-- The loop body of `_load_questions`: for consecutive start positions
`p, q` the question text is `content[p:q].strip()`; the last span runs to
the end of the document. -/
def segSpans (content : List Char) : List Nat → List (List Char)
  | [] => []
  | [p] => [stripChars (content.drop p)]
  | p :: q :: rest =>
    stripChars ((content.drop p).take (q - p)) :: segSpans content (q :: rest)

/-- `QuestionFile._load_questions`: the list of question texts of a
document. -/
def segment (content : List Char) : List (List Char) :=
  segSpans content (findMarkers content)

/-- The `i`-th raw (untrimmed) span, from the `i`-th marker start to the
`(i+1)`-th (or, for the last marker, to the end of the document). -/
def markerSlice (content : List Char) (i : Nat) : List Char :=
  let ps := findMarkers content
  let s := ps.getD i 0
  let e := ps.getD (i + 1) content.length
  (content.drop s).take (e - s)

/-! ## Selection (`QuestionDatabase.select_questions`)

A `Question` carries its text and the identifier of its source file
(`source_file`; filepaths — distinct strings on a filesystem — are
abstracted to `Nat`).  A `QFile` is a loaded `QuestionFile`:
`QuestionDatabase._load_files` only keeps files with at least one
question, an invariant stated as a hypothesis where needed.  The per-file
allocation dictionary (keyed by the distinct filepaths) is represented
positionally as a `List (QFile × Nat)` in file order. -/

/-- A question: text plus owning file (`Question.content`, `Question.source_file`). -/
structure Question where
  content : List Char
  source_file : Nat
deriving DecidableEq

/-- A loaded question file: path identifier plus its questions in order. -/
structure QFile where
  path : Nat
  questions : List Question
deriving DecidableEq

/-- `QuestionDatabase.get_total_questions`. -/
def totalAvailable (files : List QFile) : Nat :=
  (files.map (fun qf => qf.questions.length)).sum

/-- Exact rational round-half-to-even of `num / den` (`den > 0`): the
semantics of Python's `round`.  Python evaluates
`round(count / total * R)` in binary floating point; at every input
appearing in the claims the float product is exactly the rational value
(e.g. `(9/10)*5 == 4.5` and `(1/10)*5 == 0.5` as doubles), so the exact
rational model agrees with the source there. -/
def roundHalfEven (num den : Nat) : Nat :=
  let q := num / den
  let r := num % den
  if 2 * r < den then q
  else if den < 2 * r then q + 1
  else if q % 2 = 0 then q else q + 1

/-- The proportional first pass: for each file in order,
`n = min(max(1, round(count/total*R)), count, remaining)`, recording `n`
and decreasing `remaining`.  Returns the plan and the final remainder. -/
def firstPass (total R : Nat) : List QFile → Nat → List (QFile × Nat) × Nat
  | [], rem => ([], rem)
  | qf :: rest, rem =>
    let n := min (max 1 (roundHalfEven (qf.questions.length * R) total))
      (min qf.questions.length rem)
    let pr := firstPass total R rest (rem - n)
    ((qf, n) :: pr.1, pr.2)

/-- One pass of the deficit-adjustment `for` loop: each file (in order)
with spare capacity gets one more unit; the pass stops early when
`remaining` reaches zero.  Only ever entered with `remaining > 0`. -/
def adjustPass : List (QFile × Nat) → Nat → List (QFile × Nat) × Nat
  | [], rem => ([], rem)
  | (qf, n) :: rest, rem =>
    if n < qf.questions.length then
      if rem - 1 = 0 then ((qf, n + 1) :: rest, 0)
      else
        let pr := adjustPass rest (rem - 1)
        ((qf, n + 1) :: pr.1, pr.2)
    else
      let pr := adjustPass rest rem
      ((qf, n) :: pr.1, pr.2)

/-- The `while remaining > 0` loop around `adjustPass`, with explicit
fuel.  `none` models divergence of the source's loop: a pass that makes
no progress leaves the state unchanged, so the Python loop never exits;
conversely every productive pass decreases `remaining` by at least one,
so fuel `R ≥ remaining` is never the reason for `none`. -/
def adjustLoop : Nat → List (QFile × Nat) → Nat → Option (List (QFile × Nat) × Nat)
  | fuel, plan, rem =>
    if rem = 0 then some (plan, 0)
    else
      match fuel with
      | 0 => none
      | fuel' + 1 =>
        let pr := adjustPass plan rem
        adjustLoop fuel' pr.1 pr.2

/-- The complete allocation of the proportional regime: first pass, then
the adjustment loop (fuel `R` bounds the initial remainder). -/
def makePlan (files : List QFile) (R : Nat) : Option (List (QFile × Nat)) :=
  let fp := firstPass (totalAvailable files) R files R
  (adjustLoop R fp.1 fp.2).map (fun pr => pr.1)

/-- The diversity-regime walk over the shuffled question list: take the
first question seen from each not-yet-used source file; after each
addition, stop as soon as `R` questions are collected. -/
def walkAux (R : Nat) : List Question → List Question → List Nat → List Question
  | [], sel, _ => sel
  | q :: rest, sel, seen =>
    if q.source_file ∈ seen then walkAux R rest sel seen
    else
      let sel' := sel ++ [q]
      if R ≤ sel'.length then sel'
      else walkAux R rest sel' (q.source_file :: seen)

/-- `QuestionDatabase.select_questions`.  `shuffle1` models the shuffle
of the flattened question list, `shuffle2` the final shuffle of the
selection, `sample qs n` models `random.sample(qs, n)`; `none` models
divergence of the adjustment loop. -/
def selectQuestions (shuffle1 shuffle2 : List Question → List Question)
    (sample : List Question → Nat → List Question)
    (files : List QFile) (R : Nat) : Option (List Question) :=
  if files.isEmpty then some []
  else
    let all := shuffle1 (files.flatMap (fun qf => qf.questions))
    if R ≤ files.length then
      some ((shuffle2 (walkAux R all [] [])).take R)
    else
      match makePlan files R with
      | none => none
      | some plan =>
        some ((shuffle2 (plan.flatMap (fun p => sample p.1.questions p.2))).take R)

/-- The last `\di`-marked item of an alternative list (the amended
partition policy: the last correct-marked item encountered wins). -/
def lastDi : List (List Char) → Option (List Char)
  | [] => none
  | a :: rest =>
    match lastDi rest with
    | some g => some g
    | none => if isDiAlt a then some a else none

/-! ## Concrete inputs used by counterexamples and witnesses -/

/-- An answer-list with two `\di`-marked items. -/
def c3content : List Char :=
  "\\begin\x7banswerlist\x7d\n\\di A\n\\di B\n\\end\x7banswerlist\x7d".toList

/-- A one-item answer-list block. -/
def oneItemBlock : List Char :=
  "\\begin\x7banswerlist\x7d\n\\ti a\n\\end\x7banswerlist\x7d".toList

/-- A unit containing the same answer-list block twice. -/
def c4content : List Char := oneItemBlock ++ "x".toList ++ oneItemBlock

/-- A unit with a single answer-list surrounded by other text. -/
def c4single : List Char := "Q? ".toList ++ oneItemBlock ++ " end.".toList

/-- A unit with one distractor and one correct item. -/
def c5content : List Char :=
  "\\begin\x7banswerlist\x7d\n\\ti w\n\\di c\n\\end\x7banswerlist\x7d".toList

/-- A unit with no answer-list markers at all. -/
def c9content : List Char := "hi".toList

/-- A document with two question-start markers. -/
def c8doc : List Char :=
  ("\\needspace\x7b2\\baselineskip\x7d\n\\item \\rtask one\n\n" ++
    "\\needspace\x7b3\\baselineskip\x7d \\item  \\rtask two\n").toList

/-- `n` distinct questions owned by source `src`. -/
def natQs (src n : Nat) : List Question :=
  (List.range n).map (fun k => ⟨[Char.ofNat (65 + k)], src⟩)

/-- File A of the C7 scenario: 9 questions. -/
def fileA9 : QFile := ⟨0, natQs 0 9⟩

/-- File B of the C7 scenario: 1 question. -/
def fileB1 : QFile := ⟨1, natQs 1 1⟩

/-- C1 counterexample inventory: one file of 20 questions followed by a
file of 1 question. -/
def c1Files : List QFile := [⟨0, natQs 0 20⟩, ⟨1, natQs 1 1⟩]

/-- C1 witness inventory: two files of 2 questions each. -/
def c1wFiles : List QFile := [⟨0, natQs 0 2⟩, ⟨1, natQs 1 2⟩]

/-- C2 witness inventory. -/
def c2wFiles : List QFile := [⟨0, natQs 0 2⟩, ⟨1, natQs 1 1⟩, ⟨2, natQs 2 1⟩]

/-- C6 witness inventory: the claim's scenario `{fileA: 3, fileB: 1}`. -/
def c6wFiles : List QFile := [⟨0, natQs 0 3⟩, ⟨1, natQs 1 1⟩]

/-- C10 witness inventory. -/
def c10wFiles : List QFile := [⟨0, natQs 0 3⟩, ⟨1, natQs 1 2⟩]

/-- Default entry for positional lookups in allocation plans. -/
def dummyEntry : QFile × Nat := (⟨0, []⟩, 0)

/-! # Theorems -/

/-! ## Basic facts about the string scanners -/

theorem findSub_isPrefixOf {pat s : List Char} {k : Nat}
    (h : findSub pat s = some k) : pat.isPrefixOf (s.drop k) = true := by
  induction s generalizing k with
  | nil =>
    unfold findSub at h
    by_cases hp : pat.isEmpty
    · simp [hp] at h
      subst h
      cases pat with
      | nil => simp [List.isPrefixOf]
      | cons a l => simp [List.isEmpty] at hp
    · simp [hp] at h
  | cons c rest ih =>
    unfold findSub at h
    by_cases hp : pat.isPrefixOf (c :: rest)
    · simp [hp] at h
      subst h
      simpa using hp
    · simp [hp] at h
      obtain ⟨k', hk', rfl⟩ := h
      simpa using ih hk'

theorem findSub_le {pat s : List Char} {k : Nat}
    (h : findSub pat s = some k) : k ≤ s.length := by
  induction s generalizing k with
  | nil =>
    unfold findSub at h
    by_cases hp : pat.isEmpty
    · simp [hp] at h; omega
    · simp [hp] at h
  | cons c rest ih =>
    unfold findSub at h
    by_cases hp : pat.isPrefixOf (c :: rest)
    · simp [hp] at h; omega
    · simp [hp] at h
      obtain ⟨k', hk', rfl⟩ := h
      have := ih hk'
      simp
      omega

/-! ## C9: the unchanged-text fallbacks of `randomize` -/

/-- C9: `randomize` returns the unit's text unchanged whenever the unit
is not classified as multiple-choice, or no complete begin/end-bounded
answer-list region is found, or zero alternative items are extracted
from it. -/
theorem claim_C9 (content : List Char)
    (shuffle : List (List Char) → List (List Char)) (ip : Nat)
    (h : isMultipleChoice content = false ∨ answerlistSpan content = none ∨
      extractFrom (foundBlock content) = []) :
    randomize shuffle ip content = content := by
  unfold randomize
  cases hmc : isMultipleChoice content with
  | false => simp
  | true =>
    simp only [if_pos rfl]
    rcases h with h1 | h2 | h3
    · rw [hmc] at h1; cases h1
    · unfold randomizeAlternatives
      rw [h2]
      simp
    · unfold randomizeAlternatives
      unfold foundBlock at h3
      cases hspan : answerlistSpan content with
      | none => rfl
      | some pr =>
        obtain ⟨i, e⟩ := pr
        rw [hspan] at h3
        simp [h3]

/-- Witness for C9 at a concrete non-multiple-choice unit. -/
theorem claim_C9_witness : randomize id 0 c9content = c9content :=
  claim_C9 c9content id 0 (Or.inl (by decide))

/-! ## C3: which `\di` item becomes the gabarito -/

/-- The partition fold, characterized: the final `gabarito` is the last
`\di`-marked item (falling back to the accumulator's), and the
distractors are the non-`\di` items in order. -/
theorem partitionAlts_foldl (alts : List (List Char))
    (g0 : Option (List Char)) (acc : List (List Char)) :
    alts.foldl
        (fun st alt => if isDiAlt alt then (some alt, st.2) else (st.1, st.2 ++ [alt]))
        (g0, acc) =
      ((match lastDi alts with | some g => some g | none => g0),
        acc ++ alts.filter (fun a => !isDiAlt a)) := by
  induction alts generalizing g0 acc with
  | nil => simp [lastDi]
  | cons a rest ih =>
    by_cases hd : isDiAlt a
    · simp only [List.foldl_cons, if_pos hd, ih, lastDi, List.filter_cons, hd]
      cases lastDi rest <;> simp
    · simp only [List.foldl_cons, if_neg hd, ih, lastDi, List.filter_cons]
      cases lastDi rest <;> simp [hd]

theorem partitionAlts_eq (alts : List (List Char)) :
    partitionAlts alts = (lastDi alts, alts.filter (fun a => !isDiAlt a)) := by
  unfold partitionAlts
  rw [partitionAlts_foldl]
  cases lastDi alts <;> simp

/-- C3 (amended): when the extracted answer-list has more than one
`\di`-marked item, the partition step keeps the **last** one encountered
as the gabarito (each later `\di` item overwrites the previous), and
earlier `\di` items are dropped — they do not appear among the
distractors either. -/
theorem claim_C3 (content : List Char)
    (_h : 1 < ((extractFrom (foundBlock content)).filter isDiAlt).length) :
    (partitionAlts (extractFrom (foundBlock content))).1 =
        lastDi (extractFrom (foundBlock content)) ∧
      (partitionAlts (extractFrom (foundBlock content))).2 =
        (extractFrom (foundBlock content)).filter (fun a => !isDiAlt a) := by
  rw [partitionAlts_eq]
  exact ⟨rfl, rfl⟩

/-- Counterexample to C3 as stated: a unit whose answer-list holds two
`\di` items; the partition step selects the second, not the first. -/
theorem claim_C3_counterexample :
    isMultipleChoice c3content = true ∧
    2 ≤ ((extractFrom (foundBlock c3content)).filter isDiAlt).length ∧
    (partitionAlts (extractFrom (foundBlock c3content))).1 ≠
      ((extractFrom (foundBlock c3content)).filter isDiAlt).head? := by
  decide

/-- Witness for the amended C3 at the two-`\di` unit. -/
theorem claim_C3_witness :
    (partitionAlts (extractFrom (foundBlock c3content))).1 =
        lastDi (extractFrom (foundBlock c3content)) ∧
      (partitionAlts (extractFrom (foundBlock c3content))).2 =
        (extractFrom (foundBlock c3content)).filter (fun a => !isDiAlt a) :=
  claim_C3 c3content (by decide)

/-! ## C7: the `{fileA: 9, fileB: 1}, R = 5` allocation scenario -/

/-- C7: in the proportional regime the inventory `{fileA: 9, fileB: 1}`
with `R = 5` is allocated 4 units to fileA and 1 to fileB, totalling 5
(`round(45/10)` is 4 under Python's half-to-even rounding, the remainder
then forces fileB's floor of 1). -/
theorem claim_C7 :
    2 < 5 ∧ 5 ≤ totalAvailable [fileA9, fileB1] ∧
      makePlan [fileA9, fileB1] 5 = some [(fileA9, 4), (fileB1, 1)] ∧
      4 + 1 = 5 := by
  refine ⟨by omega, by decide, by decide, rfl⟩

/-! ## C8: segmentation -/

theorem segSpans_length (content : List Char) :
    ∀ ps : List Nat, (segSpans content ps).length = ps.length
  | [] => rfl
  | [_] => rfl
  | p :: q :: rest => by
    simpa [segSpans] using segSpans_length content (q :: rest)

theorem segSpans_getElem (content : List Char) :
    ∀ (ps : List Nat) (i : Nat), i < ps.length →
      (segSpans content ps)[i]? =
        some (stripChars ((content.drop (ps.getD i 0)).take
          (ps.getD (i + 1) content.length - ps.getD i 0)))
  | [], i, h => by simp at h
  | [p], i, h => by
    have hi : i = 0 := by
      simp only [List.length_singleton] at h
      omega
    subst hi
    have hlen : (content.drop p).length ≤ content.length - p := by simp
    simp [segSpans, List.take_of_length_le hlen]
  | p :: q :: rest, i, h => by
    cases i with
    | zero => simp [segSpans]
    | succ j =>
      have hj : j < (q :: rest).length := by
        simpa using Nat.lt_of_succ_lt_succ h
      have hrec := segSpans_getElem content (q :: rest) j hj
      simpa [segSpans, List.getElem?_cons_succ, List.getD_cons_succ] using hrec

/-- C8: a document with `N` question-start-marker matches segments into
exactly `N` question units; the `i`-th unit is the span from the `i`-th
marker start to the next marker start (the last extending to the end of
the document), trimmed of surrounding whitespace; a document with no
marker matches yields no units. -/
theorem claim_C8 (content : List Char) :
    (segment content).length = (findMarkers content).length ∧
      (∀ i, i < (findMarkers content).length →
        (segment content)[i]? = some (stripChars (markerSlice content i))) ∧
      (findMarkers content = [] → segment content = []) := by
  refine ⟨segSpans_length content (findMarkers content), ?_, ?_⟩
  · intro i hi
    unfold segment markerSlice
    exact segSpans_getElem content (findMarkers content) i hi
  · intro h
    unfold segment
    rw [h]
    rfl

/-- Witness for C8 at a concrete two-marker document. -/
theorem claim_C8_witness :
    (segment c8doc).length = (findMarkers c8doc).length ∧
      (segment c8doc)[0]? = some (stripChars (markerSlice c8doc 0)) ∧
      (segment c8doc)[1]? = some (stripChars (markerSlice c8doc 1)) :=
  ⟨(claim_C8 c8doc).1, (claim_C8 c8doc).2.1 0 (by decide),
    (claim_C8 c8doc).2.1 1 (by decide)⟩

/-! ## Facts about `pyReplace` and the answer-list span -/

theorem pyReplaceGo_skip (pat rep : List Char) :
    ∀ (s : List Char) (k : Nat),
      pyReplaceGo pat rep k s = pyReplaceGo pat rep 0 (s.drop k)
  | _, 0 => by simp
  | [], _ + 1 => rfl
  | c :: rest, k + 1 => by
    show pyReplaceGo pat rep k rest = _
    rw [pyReplaceGo_skip pat rep rest k]
    rfl

theorem pyReplace_cons_pos {pat : List Char} (rep : List Char) {c : Char}
    {rest : List Char} (hne : pat ≠ []) (hp : pat.isPrefixOf (c :: rest) = true) :
    pyReplace pat rep (c :: rest) =
      rep ++ pyReplace pat rep ((c :: rest).drop pat.length) := by
  obtain ⟨k, hk⟩ : ∃ k, pat.length = k + 1 := by
    cases pat with
    | nil => exact absurd rfl hne
    | cons p ps => exact ⟨ps.length, rfl⟩
  show (if pat ≠ [] ∧ pat.isPrefixOf (c :: rest) = true then
      rep ++ pyReplaceGo pat rep (pat.length - 1) rest
    else c :: pyReplaceGo pat rep 0 rest) = _
  rw [if_pos ⟨hne, hp⟩, pyReplaceGo_skip]
  rw [hk]
  rfl

theorem pyReplace_cons_neg {pat : List Char} (rep : List Char) {c : Char}
    {rest : List Char} (hp : ¬ (pat ≠ [] ∧ pat.isPrefixOf (c :: rest) = true)) :
    pyReplace pat rep (c :: rest) = c :: pyReplace pat rep rest := by
  show (if pat ≠ [] ∧ pat.isPrefixOf (c :: rest) = true then
      rep ++ pyReplaceGo pat rep (pat.length - 1) rest
    else c :: pyReplaceGo pat rep 0 rest) = _
  rw [if_neg hp]
  rfl

/-- A nonempty pattern that never occurs leaves the text unchanged. -/
theorem pyReplace_no_occ (pat rep : List Char) :
    ∀ s : List Char, (∀ j, pat.isPrefixOf (s.drop j) = false) →
      pyReplace pat rep s = s
  | [], _ => rfl
  | c :: rest, h => by
    have h0 := h 0
    simp only [List.drop_zero] at h0
    rw [pyReplace_cons_neg rep (by simp [h0])]
    rw [pyReplace_no_occ pat rep rest (fun j => h (j + 1))]

theorem pyReplace_append_start {pat : List Char} (rep : List Char)
    (t : List Char) (hne : pat ≠ []) :
    pyReplace pat rep (pat ++ t) = rep ++ pyReplace pat rep t := by
  cases pat with
  | nil => exact absurd rfl hne
  | cons p ps =>
    have hp : (p :: ps).isPrefixOf (p :: (ps ++ t)) = true :=
      List.isPrefixOf_iff_prefix.mpr (List.prefix_append (p :: ps) t)
    rw [show (p :: ps) ++ t = p :: (ps ++ t) from rfl,
      pyReplace_cons_pos rep hne hp]
    congr 1
    rw [show p :: (ps ++ t) = (p :: ps) ++ t from rfl, List.drop_left]

/-- Replacing a pattern with a unique occurrence splices the replacement
into that one position. -/
theorem pyReplace_unique_occ {pat : List Char} (rep : List Char) (hne : pat ≠ []) :
    ∀ (a b : List Char),
      (∀ j, j < a.length → pat.isPrefixOf ((a ++ pat ++ b).drop j) = false) →
      (∀ j, pat.isPrefixOf (b.drop j) = false) →
      pyReplace pat rep (a ++ pat ++ b) = a ++ rep ++ b
  | [], b, _, hb => by
    simp only [List.nil_append]
    rw [pyReplace_append_start rep b hne, pyReplace_no_occ pat rep b hb]
  | c :: a', b, ha, hb => by
    have h0 : pat.isPrefixOf (c :: (a' ++ pat ++ b)) = false := by
      have := ha 0 (by simp)
      simpa using this
    rw [show (c :: a') ++ pat ++ b = c :: (a' ++ pat ++ b) from rfl,
      pyReplace_cons_neg rep (fun hand => by rw [hand.2] at h0; simp at h0),
      pyReplace_unique_occ rep hne a' b
        (fun j hj => by simpa using ha (j + 1) (by simpa using Nat.succ_lt_succ hj))
        hb]
    rfl

/-- When the pattern does occur, the replacement text appears in the
output. -/
theorem rep_infix_pyReplace {pat : List Char} (rep : List Char) (hne : pat ≠ []) :
    ∀ s : List Char, (∃ j, pat.isPrefixOf (s.drop j) = true) →
      rep <:+: pyReplace pat rep s
  | [], ⟨j, hj⟩ => by
    exfalso
    cases pat with
    | nil => exact hne rfl
    | cons p ps => simp at hj
  | c :: rest, ⟨j, hj⟩ => by
    by_cases hp : pat.isPrefixOf (c :: rest) = true
    · rw [pyReplace_cons_pos rep hne hp]
      exact ⟨[], pyReplace pat rep ((c :: rest).drop pat.length), by simp⟩
    · rw [pyReplace_cons_neg rep (fun hand => hp hand.2)]
      refine List.infix_cons ?_
      refine rep_infix_pyReplace rep hne rest ⟨j - 1, ?_⟩
      cases j with
      | zero => simp only [List.drop_zero] at hj; exact absurd hj hp
      | succ j' => simpa using hj

theorem answerlistSpan_shape {content : List Char} {i e : Nat}
    (h : answerlistSpan content = some (i, e)) :
    findSub beginAL content = some i ∧
      ∃ k, findSub endAL (content.drop (i + beginAL.length)) = some k ∧
        e = i + beginAL.length + k + endAL.length := by
  unfold answerlistSpan at h
  split at h
  · cases h
  · rename_i i' hb
    split at h
    · cases h
    · rename_i k he
      injection h with h2
      injection h2 with h3 h4
      subst h3
      exact ⟨hb, k, he, h4.symm⟩

theorem answerlistSpan_facts {content : List Char} {i e : Nat}
    (h : answerlistSpan content = some (i, e)) :
    i ≤ content.length ∧ i < e ∧ beginAL.isPrefixOf (content.drop i) = true := by
  obtain ⟨hb, k, _, rfl⟩ := answerlistSpan_shape h
  have h18 : 0 < beginAL.length := by decide
  exact ⟨findSub_le hb, by omega, findSub_isPrefixOf hb⟩

theorem foundBlock_ne_nil {content : List Char} {i e : Nat}
    (h : answerlistSpan content = some (i, e)) :
    (content.drop i).take (e - i) ≠ [] := by
  obtain ⟨_, hlt, hpre⟩ := answerlistSpan_facts h
  intro hc
  rw [List.take_eq_nil_iff] at hc
  rcases hc with hc | hc
  · omega
  · rw [hc] at hpre
    exact absurd hpre (by decide)

theorem block_isPrefixOf_drop (content : List Char) (i e : Nat) :
    ((content.drop i).take (e - i)).isPrefixOf (content.drop i) = true :=
  List.isPrefixOf_iff_prefix.mpr (List.take_prefix _ _)

theorem take_slice_drop (l : List Char) {i e : Nat} (h : i ≤ e) :
    l.take i ++ (((l.drop i).take (e - i)) ++ l.drop e) = l := by
  conv_rhs => rw [← List.take_append_drop i l]
  congr 1
  conv_rhs => rw [← List.take_append_drop (e - i) (l.drop i)]
  congr 1
  rw [List.drop_drop]
  congr 1
  omega

/-- A nonempty pattern is never a prefix of the empty list. -/
theorem isPrefixOf_nil_eq_false {pat : List Char} (hne : pat ≠ []) :
    pat.isPrefixOf ([] : List Char) = false := by
  cases pat with
  | nil => exact absurd rfl hne
  | cons p ps => rfl

/-! ## C4: the frame property of the answer-list replacement -/

/-- C4 (amended): `randomize` replaces every occurrence of the exact text
of the first (smallest, non-greedy) begin/end-bounded answer-list region;
when that text occurs only once in the unit — in particular whenever the
unit contains a single answer-list — only the matched span is replaced
and every character outside it is unchanged. -/
theorem claim_C4 (content : List Char)
    (shuffle : List (List Char) → List (List Char)) (ip : Nat) (i e : Nat)
    (hspan : answerlistSpan content = some (i, e))
    (hext : extractFrom ((content.drop i).take (e - i)) ≠ [])
    (huniq : ∀ j, j < content.length →
      ((content.drop i).take (e - i)).isPrefixOf (content.drop j) = true → j = i) :
    randomizeAlternatives shuffle ip content =
      content.take i ++
        (rebuiltBlock shuffle ip ((content.drop i).take (e - i)) ++
          content.drop e) := by
  obtain ⟨hile, hlt, _⟩ := answerlistSpan_facts hspan
  have hbne : (content.drop i).take (e - i) ≠ [] := foundBlock_ne_nil hspan
  unfold randomizeAlternatives
  rw [hspan]
  simp only [if_neg hext]
  have hdecomp :
      content.take i ++ ((content.drop i).take (e - i) ++ content.drop e) =
        content := take_slice_drop content (Nat.le_of_lt hlt)
  have htl : (content.take i).length = i := by
    simp [List.length_take]
    omega
  have ha : ∀ j, j < (content.take i).length →
      ((content.drop i).take (e - i)).isPrefixOf
        ((content.take i ++ ((content.drop i).take (e - i) ++ content.drop e)).drop j) =
        false := by
    intro j hj
    rw [hdecomp]
    rw [htl] at hj
    by_contra hcon
    have hcon' : ((content.drop i).take (e - i)).isPrefixOf (content.drop j) = true := by
      simpa using hcon
    have := huniq j (by omega) hcon'
    omega
  have hb : ∀ j,
      ((content.drop i).take (e - i)).isPrefixOf ((content.drop e).drop j) =
        false := by
    intro j
    rw [List.drop_drop]
    by_cases hje : e + j < content.length
    · by_contra hcon
      have hcon' : ((content.drop i).take (e - i)).isPrefixOf
          (content.drop (e + j)) = true := by simpa using hcon
      have hji := huniq (e + j) hje hcon'
      omega
    · rw [show content.drop (e + j) = ([] : List Char) from
        List.drop_eq_nil_of_le (by omega)]
      exact isPrefixOf_nil_eq_false hbne
  calc pyReplace ((content.drop i).take (e - i))
        (rebuiltBlock shuffle ip ((content.drop i).take (e - i))) content
      = pyReplace ((content.drop i).take (e - i))
          (rebuiltBlock shuffle ip ((content.drop i).take (e - i)))
          (content.take i ++ ((content.drop i).take (e - i) ++ content.drop e)) := by
        rw [hdecomp]
    _ = content.take i ++
          (rebuiltBlock shuffle ip ((content.drop i).take (e - i)) ++
            content.drop e) := by
        have := pyReplace_unique_occ
          (rebuiltBlock shuffle ip ((content.drop i).take (e - i))) hbne
          (content.take i) (content.drop e) (by simpa using ha) hb
        simpa using this

/-- Counterexample to C4 as stated: a unit containing the same
answer-list block twice.  The source replaces **every** occurrence of the
matched text, so the text after the matched span is also modified — the
original suffix no longer survives in the output. -/
theorem claim_C4_counterexample :
    isMultipleChoice c4content = true ∧
      answerlistSpan c4content = some (0, 41) ∧
      (c4content.drop 41).isSuffixOf (randomizeAlternatives id 0 c4content) =
        false := by
  decide

/-- Witness for the amended C4 at a unit with a unique answer-list. -/
theorem claim_C4_witness :
    randomizeAlternatives id 0 c4single =
      c4single.take 3 ++
        (rebuiltBlock id 0 ((c4single.drop 3).take (44 - 3)) ++
          c4single.drop 44) :=
  claim_C4 c4single id 0 3 44 (by decide) (by decide) (by decide)

/-! ## C5: item count and gabarito preservation -/

theorem lastDi_mem : ∀ {alts : List (List Char)} {g : List Char},
    lastDi alts = some g → isDiAlt g = true ∧ g ∈ alts
  | [], _, h => by cases h
  | a :: rest, g, h => by
    unfold lastDi at h
    cases hr : lastDi rest with
    | some g' =>
      rw [hr] at h
      injection h with h
      subst h
      have hrec := lastDi_mem hr
      exact ⟨hrec.1, List.mem_cons_of_mem a hrec.2⟩
    | none =>
      rw [hr] at h
      by_cases hd : isDiAlt a
      · rw [if_pos hd] at h
        injection h with h
        subst h
        exact ⟨hd, List.mem_cons_self a rest⟩
      · rw [if_neg hd] at h
        cases h

theorem lastDi_none : ∀ {alts : List (List Char)},
    lastDi alts = none → alts.filter isDiAlt = []
  | [], _ => rfl
  | a :: rest, h => by
    unfold lastDi at h
    cases hr : lastDi rest with
    | some g' => rw [hr] at h; cases h
    | none =>
      rw [hr] at h
      by_cases hd : isDiAlt a
      · rw [if_pos hd] at h; cases h
      · simp [List.filter_cons, hd, lastDi_none hr]

theorem pyInsert_length {α} (x : α) :
    ∀ (l : List α) (pos : Nat), (pyInsert pos x l).length = l.length + 1
  | [], _ => rfl
  | y :: ys, pos => by
    unfold pyInsert
    by_cases h : pos = 0
    · simp [h]
    · simp [h, pyInsert_length x ys (pos - 1)]

theorem pyInsert_mem {α} (x : α) :
    ∀ (l : List α) (pos : Nat), x ∈ pyInsert pos x l
  | [], _ => List.mem_singleton.mpr rfl
  | y :: ys, pos => by
    unfold pyInsert
    by_cases h : pos = 0
    · simp [h]
    · simp [h, pyInsert_mem x ys (pos - 1)]

theorem flatMap_infix_of_mem {α β} (f : α → List β) {a : α} {l : List α}
    (h : a ∈ l) : f a <:+: l.flatMap f := by
  obtain ⟨s, t, rfl⟩ := List.append_of_mem h
  exact ⟨s.flatMap f, t.flatMap f, by simp⟩

/-- C5: for a multiple-choice unit whose (first) answer-list extracts to
exactly one `\di`-marked item and `K` distractors, and for every outcome
of the random choices, the reassembled answer-list emitted by `randomize`
holds exactly `K + 1` items, among them the correct item, whose stripped
text (i.e. its text modulo surrounding whitespace) appears verbatim on
its own indented line of the output. -/
theorem claim_C5 (content : List Char)
    (shuffle : List (List Char) → List (List Char)) (ip : Nat) (i e K : Nat)
    (hsh : ∀ l, (shuffle l).Perm l)
    (hspan : answerlistSpan content = some (i, e))
    (hone : ((extractFrom ((content.drop i).take (e - i))).filter isDiAlt).length = 1)
    (hK : ((extractFrom ((content.drop i).take (e - i))).filter
      (fun a => !isDiAlt a)).length = K) :
    ∃ g, lastDi (extractFrom ((content.drop i).take (e - i))) = some g ∧
      isDiAlt g = true ∧
      (rebuiltItems shuffle ip (extractFrom ((content.drop i).take (e - i)))).length =
        K + 1 ∧
      g ∈ rebuiltItems shuffle ip (extractFrom ((content.drop i).take (e - i))) ∧
      (indentTok ++ stripChars g ++ ['\n']) <:+:
        randomizeAlternatives shuffle ip content := by
  set block := (content.drop i).take (e - i) with hblock
  cases hg : lastDi (extractFrom block) with
  | none =>
    rw [lastDi_none hg] at hone
    simp at hone
  | some g =>
    obtain ⟨hdi, hmem⟩ := lastDi_mem hg
    have hitems : rebuiltItems shuffle ip (extractFrom block) =
        pyInsert ip g (shuffle ((extractFrom block).filter (fun a => !isDiAlt a))) := by
      unfold rebuiltItems
      rw [partitionAlts_eq]
      rw [hg]
    have hlen : (rebuiltItems shuffle ip (extractFrom block)).length = K + 1 := by
      rw [hitems, pyInsert_length, (hsh _).length_eq, hK]
    have hmem' : g ∈ rebuiltItems shuffle ip (extractFrom block) := by
      rw [hitems]
      exact pyInsert_mem g _ ip
    refine ⟨g, rfl, hdi, hlen, hmem', ?_⟩
    have hinf1 : (indentTok ++ stripChars g ++ ['\n']) <:+:
        (rebuiltItems shuffle ip (extractFrom block)).flatMap
          (fun a => indentTok ++ stripChars a ++ ['\n']) :=
      flatMap_infix_of_mem (fun a => indentTok ++ stripChars a ++ ['\n']) hmem'
    have hinf2 : (rebuiltItems shuffle ip (extractFrom block)).flatMap
        (fun a => indentTok ++ stripChars a ++ ['\n']) <:+:
        rebuiltBlock shuffle ip block := by
      unfold rebuiltBlock
      exact ⟨(findHeaderIn block).getD defaultHeader, endAL, rfl⟩
    have hextne : extractFrom block ≠ [] := List.ne_nil_of_mem hmem
    have hinf3 : rebuiltBlock shuffle ip block <:+:
        randomizeAlternatives shuffle ip content := by
      unfold randomizeAlternatives
      rw [hspan]
      simp only [← hblock, if_neg hextne]
      exact rep_infix_pyReplace _ (foundBlock_ne_nil hspan) content
        ⟨i, block_isPrefixOf_drop content i e⟩
    exact (hinf1.trans hinf2).trans hinf3

/-- Witness for C5 at a unit with one distractor and one correct item. -/
theorem claim_C5_witness :
    ∃ g, lastDi (extractFrom ((c5content.drop 0).take (47 - 0))) = some g ∧
      isDiAlt g = true ∧
      (rebuiltItems id 0 (extractFrom ((c5content.drop 0).take (47 - 0)))).length =
        1 + 1 ∧
      g ∈ rebuiltItems id 0 (extractFrom ((c5content.drop 0).take (47 - 0))) ∧
      (indentTok ++ stripChars g ++ ['\n']) <:+: randomizeAlternatives id 0 c5content :=
  claim_C5 c5content id 0 0 47 1 (fun l => List.Perm.refl l)
    (by decide) (by decide) (by decide)

/-! ## The proportional allocation: invariants of `firstPass`,
`adjustPass` and `adjustLoop` -/

theorem firstPass_map_fst (t R : Nat) :
    ∀ (files : List QFile) (rem : Nat),
      (firstPass t R files rem).1.map Prod.fst = files
  | [], _ => rfl
  | qf :: rest, rem => by
    simp [firstPass, firstPass_map_fst t R rest]

theorem firstPass_counts_le (t R : Nat) :
    ∀ (files : List QFile) (rem : Nat),
      ∀ p ∈ (firstPass t R files rem).1, p.2 ≤ p.1.questions.length
  | [], _, p, hp => by simp [firstPass] at hp
  | qf :: rest, rem, p, hp => by
    simp only [firstPass, List.mem_cons] at hp
    rcases hp with hp | hp
    · subst hp
      show min (max 1 (roundHalfEven (qf.questions.length * R) t))
        (min qf.questions.length rem) ≤ qf.questions.length
      omega
    · exact firstPass_counts_le t R rest _ p hp

theorem firstPass_sum (t R : Nat) :
    ∀ (files : List QFile) (rem : Nat),
      ((firstPass t R files rem).1.map Prod.snd).sum +
        (firstPass t R files rem).2 = rem
  | [], _ => by simp [firstPass]
  | qf :: rest, rem => by
    have ih := firstPass_sum t R rest
      (rem - min (max 1 (roundHalfEven (qf.questions.length * R) t))
        (min qf.questions.length rem))
    simp only [firstPass, List.map_cons, List.sum_cons]
    omega

/-- The floor property of the proportional first pass: every entry gets
at least one unit, except entries reached after the remainder has been
exhausted — at such an entry the counts before it already sum to the
whole remainder. -/
theorem firstPass_floor (t R : Nat) :
    ∀ (files : List QFile) (rem : Nat),
      (∀ qf ∈ files, qf.questions ≠ []) →
      ∀ i, i < (firstPass t R files rem).1.length →
        1 ≤ ((firstPass t R files rem).1.getD i dummyEntry).2 ∨
          (((firstPass t R files rem).1.take i).map Prod.snd).sum = rem
  | [], _, _, i, hi => by simp [firstPass] at hi
  | qf :: rest, rem, hne, i, hi => by
    have hq : qf.questions ≠ [] := hne qf (List.mem_cons_self ..)
    have hq1 : 1 ≤ qf.questions.length := by
      cases h : qf.questions with
      | nil => exact absurd h hq
      | cons a l => simp [h]
    cases i with
    | zero =>
      by_cases hrem : rem = 0
      · right
        simp [hrem]
      · left
        simp only [firstPass, List.getD_cons_zero]
        omega
    | succ j =>
      simp only [firstPass, List.length_cons] at hi
      have ih := firstPass_floor t R rest
        (rem - min (max 1 (roundHalfEven (qf.questions.length * R) t))
          (min qf.questions.length rem))
        (fun qf' h' => hne qf' (List.mem_cons_of_mem _ h')) j
        (by omega)
      simp only [firstPass, List.getD_cons_succ, List.take_succ_cons,
        List.map_cons, List.sum_cons]
      rcases ih with ih | ih
      · left; exact ih
      · right
        rw [ih]
        omega

theorem adjustPass_cons_break {qf : QFile} {n rem : Nat}
    (rest : List (QFile × Nat))
    (h1 : n < qf.questions.length) (h2 : rem - 1 = 0) :
    adjustPass ((qf, n) :: rest) rem = ((qf, n + 1) :: rest, 0) := by
  simp [adjustPass, h1, h2]

theorem adjustPass_cons_go {qf : QFile} {n rem : Nat}
    (rest : List (QFile × Nat))
    (h1 : n < qf.questions.length) (h2 : rem - 1 ≠ 0) :
    adjustPass ((qf, n) :: rest) rem =
      ((qf, n + 1) :: (adjustPass rest (rem - 1)).1,
        (adjustPass rest (rem - 1)).2) := by
  simp [adjustPass, h1, h2]

theorem adjustPass_cons_full {qf : QFile} {n rem : Nat}
    (rest : List (QFile × Nat)) (h1 : ¬ n < qf.questions.length) :
    adjustPass ((qf, n) :: rest) rem =
      ((qf, n) :: (adjustPass rest rem).1, (adjustPass rest rem).2) := by
  simp [adjustPass, h1]

theorem adjustPass_map_fst :
    ∀ (plan : List (QFile × Nat)) (rem : Nat),
      (adjustPass plan rem).1.map Prod.fst = plan.map Prod.fst
  | [], _ => rfl
  | (qf, n) :: rest, rem => by
    by_cases h1 : n < qf.questions.length
    · by_cases h2 : rem - 1 = 0
      · rw [adjustPass_cons_break rest h1 h2]
        rfl
      · rw [adjustPass_cons_go rest h1 h2]
        simp [adjustPass_map_fst rest (rem - 1)]
    · rw [adjustPass_cons_full rest h1]
      simp [adjustPass_map_fst rest rem]

theorem adjustPass_counts_le :
    ∀ (plan : List (QFile × Nat)) (rem : Nat),
      (∀ p ∈ plan, p.2 ≤ p.1.questions.length) →
      ∀ p ∈ (adjustPass plan rem).1, p.2 ≤ p.1.questions.length
  | [], _, _, p, hp => by simp [adjustPass] at hp
  | (qf, n) :: rest, rem, h, p, hp => by
    have hrest := fun p' hp' => h p' (List.mem_cons_of_mem _ hp')
    by_cases h1 : n < qf.questions.length
    · by_cases h2 : rem - 1 = 0
      · rw [adjustPass_cons_break rest h1 h2] at hp
        rcases List.mem_cons.mp hp with hp | hp
        · subst hp; simpa using h1
        · exact hrest p hp
      · rw [adjustPass_cons_go rest h1 h2] at hp
        rcases List.mem_cons.mp hp with hp | hp
        · subst hp; simpa using h1
        · exact adjustPass_counts_le rest (rem - 1) hrest p hp
    · rw [adjustPass_cons_full rest h1] at hp
      rcases List.mem_cons.mp hp with hp | hp
      · subst hp
        exact h (qf, n) (List.mem_cons_self ..)
      · exact adjustPass_counts_le rest rem hrest p hp

theorem adjustPass_sum :
    ∀ (plan : List (QFile × Nat)) (rem : Nat), 1 ≤ rem →
      ((adjustPass plan rem).1.map Prod.snd).sum + (adjustPass plan rem).2 =
        (plan.map Prod.snd).sum + rem
  | [], _, _ => by simp [adjustPass]
  | (qf, n) :: rest, rem, hrem => by
    by_cases h1 : n < qf.questions.length
    · by_cases h2 : rem - 1 = 0
      · rw [adjustPass_cons_break rest h1 h2]
        simp only [List.map_cons, List.sum_cons]
        omega
      · have ih := adjustPass_sum rest (rem - 1) (by omega)
        rw [adjustPass_cons_go rest h1 h2]
        simp only [List.map_cons, List.sum_cons]
        omega
    · have ih := adjustPass_sum rest rem hrem
      rw [adjustPass_cons_full rest h1]
      simp only [List.map_cons, List.sum_cons]
      omega

theorem adjustPass_rem_le :
    ∀ (plan : List (QFile × Nat)) (rem : Nat), (adjustPass plan rem).2 ≤ rem
  | [], _ => Nat.le_refl _
  | (qf, n) :: rest, rem => by
    by_cases h1 : n < qf.questions.length
    · by_cases h2 : rem - 1 = 0
      · rw [adjustPass_cons_break rest h1 h2]
        exact Nat.zero_le _
      · have := adjustPass_rem_le rest (rem - 1)
        rw [adjustPass_cons_go rest h1 h2]
        show (adjustPass rest (rem - 1)).2 ≤ rem
        omega
    · have := adjustPass_rem_le rest rem
      rw [adjustPass_cons_full rest h1]
      exact this

/-- A pass over a plan with at least one under-allocated entry makes
progress: the remainder strictly decreases. -/
theorem adjustPass_progress :
    ∀ (plan : List (QFile × Nat)) (rem : Nat), 1 ≤ rem →
      (∃ p ∈ plan, p.2 < p.1.questions.length) →
      (adjustPass plan rem).2 < rem
  | [], _, _, hex => by simp at hex
  | (qf, n) :: rest, rem, hrem, hex => by
    by_cases h1 : n < qf.questions.length
    · by_cases h2 : rem - 1 = 0
      · rw [adjustPass_cons_break rest h1 h2]
        show 0 < rem
        omega
      · have := adjustPass_rem_le rest (rem - 1)
        rw [adjustPass_cons_go rest h1 h2]
        show (adjustPass rest (rem - 1)).2 < rem
        omega
    · obtain ⟨p, hp, hplt⟩ := hex
      rcases List.mem_cons.mp hp with hp | hp
      · subst hp; exact absurd hplt h1
      · have := adjustPass_progress rest rem hrem ⟨p, hp, hplt⟩
        rw [adjustPass_cons_full rest h1]
        exact this

/-- Counts never decrease across a pass. -/
theorem adjustPass_mono :
    ∀ (plan : List (QFile × Nat)) (rem : Nat) (i : Nat),
      (plan.getD i dummyEntry).2 ≤ ((adjustPass plan rem).1.getD i dummyEntry).2
  | [], _, _ => by simp [adjustPass]
  | (qf, n) :: rest, rem, i => by
    by_cases h1 : n < qf.questions.length
    · by_cases h2 : rem - 1 = 0
      · rw [adjustPass_cons_break rest h1 h2]
        cases i with
        | zero => simp
        | succ j => simp
      · rw [adjustPass_cons_go rest h1 h2]
        cases i with
        | zero => simp
        | succ j => simpa using adjustPass_mono rest (rem - 1) j
    · rw [adjustPass_cons_full rest h1]
      cases i with
      | zero => simp
      | succ j => simpa using adjustPass_mono rest rem j

/-- If the counts sum to strictly less than the capacities, some entry
still has spare capacity. -/
theorem exists_spare {plan : List (QFile × Nat)}
    (h : (plan.map Prod.snd).sum <
      (plan.map (fun p => p.1.questions.length)).sum) :
    ∃ p ∈ plan, p.2 < p.1.questions.length := by
  by_contra hcon
  push_neg at hcon
  have : (plan.map (fun p => p.1.questions.length)).sum ≤
      (plan.map Prod.snd).sum :=
    List.sum_le_sum (fun p hp => hcon p hp)
  omega

/-- Termination and invariants of the adjustment loop: with fuel at
least the remainder, consistent sums, and a request within the total
capacity, the loop reaches remainder zero, preserving the file list,
the per-file capacity bounds, restoring the full requested sum, and
never decreasing any count. -/
theorem adjustLoop_terminates :
    ∀ (fuel : Nat) (plan : List (QFile × Nat)) (rem R : Nat),
      rem ≤ fuel →
      (plan.map Prod.snd).sum + rem = R →
      (∀ p ∈ plan, p.2 ≤ p.1.questions.length) →
      R ≤ (plan.map (fun p => p.1.questions.length)).sum →
      ∃ plan', adjustLoop fuel plan rem = some (plan', 0) ∧
        plan'.map Prod.fst = plan.map Prod.fst ∧
        (∀ p ∈ plan', p.2 ≤ p.1.questions.length) ∧
        (plan'.map Prod.snd).sum = R ∧
        (∀ i, (plan.getD i dummyEntry).2 ≤ (plan'.getD i dummyEntry).2) := by
  intro fuel
  induction fuel with
  | zero =>
    intro plan rem R hfuel hsum hle hcap
    have hrem : rem = 0 := by omega
    subst hrem
    exact ⟨plan, by simp [adjustLoop], rfl, hle, by omega, fun i => Nat.le_refl _⟩
  | succ fuel ih =>
    intro plan rem R hfuel hsum hle hcap
    by_cases hrem : rem = 0
    · subst hrem
      exact ⟨plan, by simp [adjustLoop], rfl, hle, by omega, fun i => Nat.le_refl _⟩
    · have hrem1 : 1 ≤ rem := by omega
      have hcapeq : ((adjustPass plan rem).1.map
          (fun p => p.1.questions.length)).sum =
          (plan.map (fun p => p.1.questions.length)).sum := by
        have h1 : (adjustPass plan rem).1.map (fun p => p.1.questions.length) =
            ((adjustPass plan rem).1.map Prod.fst).map
              (fun qf => qf.questions.length) := by
          rw [List.map_map]
          rfl
        have h2 : plan.map (fun p => p.1.questions.length) =
            (plan.map Prod.fst).map (fun qf => qf.questions.length) := by
          rw [List.map_map]
          rfl
        rw [h1, h2, adjustPass_map_fst]
      have hspare : ∃ p ∈ plan, p.2 < p.1.questions.length := by
        apply exists_spare
        omega
      have hprog := adjustPass_progress plan rem hrem1 hspare
      have hsum' := adjustPass_sum plan rem hrem1
      obtain ⟨plan', hloop, hfst, hle', hsum'', hmono⟩ :=
        ih (adjustPass plan rem).1 (adjustPass plan rem).2 R (by omega)
          (by omega) (adjustPass_counts_le plan rem hle) (by omega)
      refine ⟨plan', ?_, by rw [hfst, adjustPass_map_fst], hle', hsum'', ?_⟩
      · show adjustLoop (fuel + 1) plan rem = some (plan', 0)
        unfold adjustLoop
        rw [if_neg hrem]
        exact hloop
      · intro i
        exact Nat.le_trans (adjustPass_mono plan rem i) (hmono i)

/-- `makePlan` succeeds whenever the request does not exceed the total
inventory, and the resulting plan covers the files in order, respects
every file's capacity, and sums exactly to the request. -/
theorem makePlan_complete (files : List QFile) (R : Nat)
    (hR : R ≤ totalAvailable files) :
    ∃ plan, makePlan files R = some plan ∧
      plan.map Prod.fst = files ∧
      (∀ p ∈ plan, p.2 ≤ p.1.questions.length) ∧
      (plan.map Prod.snd).sum = R ∧
      (∀ i, ((firstPass (totalAvailable files) R files R).1.getD i dummyEntry).2 ≤
        (plan.getD i dummyEntry).2) := by
  have hfst := firstPass_map_fst (totalAvailable files) R files R
  have hsum := firstPass_sum (totalAvailable files) R files R
  have hle := firstPass_counts_le (totalAvailable files) R files R
  have hcap : R ≤ ((firstPass (totalAvailable files) R files R).1.map
      (fun p => p.1.questions.length)).sum := by
    have h1 : (firstPass (totalAvailable files) R files R).1.map
        (fun p => p.1.questions.length) =
        ((firstPass (totalAvailable files) R files R).1.map Prod.fst).map
          (fun qf => qf.questions.length) := by
      rw [List.map_map]
      rfl
    rw [h1, hfst]
    exact hR
  obtain ⟨plan', hloop, hfst', hle', hsum', hmono⟩ :=
    adjustLoop_terminates R (firstPass (totalAvailable files) R files R).1
      (firstPass (totalAvailable files) R files R).2 R (by omega) (by omega)
      hle hcap
  refine ⟨plan', ?_, by rw [hfst', hfst], hle', hsum', hmono⟩
  unfold makePlan
  dsimp only
  rw [hloop]
  rfl

/-! ## C10: termination of `select_questions` -/

/-- C10: for every inventory and request within the total inventory,
`select_questions` terminates — in particular the deficit-adjustment
loop reaches remainder zero (`makePlan` returns a plan rather than
diverging), and the whole selection returns a result. -/
theorem claim_C10 (shuffle1 shuffle2 : List Question → List Question)
    (sample : List Question → Nat → List Question)
    (files : List QFile) (R : Nat) (hR : R ≤ totalAvailable files) :
    (makePlan files R).isSome = true ∧
      (selectQuestions shuffle1 shuffle2 sample files R).isSome = true := by
  obtain ⟨plan, hplan, -, -, -, -⟩ := makePlan_complete files R hR
  constructor
  · rw [hplan]
    rfl
  · unfold selectQuestions
    by_cases hemp : files.isEmpty
    · simp [hemp]
    · by_cases hreg : R ≤ files.length
      · simp [hemp, hreg]
      · simp [hemp, hreg, hplan]

/-- Witness for C10 at a concrete inventory. -/
theorem claim_C10_witness :
    (makePlan c10wFiles 4).isSome = true ∧
      (selectQuestions id id (fun l n => l.take n) c10wFiles 4).isSome = true :=
  claim_C10 id id (fun l n => l.take n) c10wFiles 4 (by decide)

/-! ## C1: the proportional floor -/

/-- C1 (amended): in the proportional regime, every file with at least
one question is allocated at least one unit **unless** the files before
it (in file order) already exhaust the whole request — in that case it
is allocated zero.  (When the proportional pass leaves a positive
remainder, every file does get at least one unit.) -/
theorem claim_C1 (files : List QFile) (R : Nat)
    (h1 : files.length < R) (h2 : R ≤ totalAvailable files)
    (hne : ∀ qf ∈ files, qf.questions ≠ []) :
    ∃ plan, makePlan files R = some plan ∧ plan.map Prod.fst = files ∧
      ∀ i, i < plan.length →
        1 ≤ (plan.getD i dummyEntry).2 ∨
          ((plan.take i).map Prod.snd).sum = R := by
  obtain ⟨plan, hplan, hfst, hle, hsum, hmono⟩ := makePlan_complete files R h2
  refine ⟨plan, hplan, hfst, ?_⟩
  intro i hi
  have hlen : plan.length = files.length := by
    have := congrArg List.length hfst
    simpa using this
  have hfplen : (firstPass (totalAvailable files) R files R).1.length =
      files.length := by
    have := congrArg List.length (firstPass_map_fst (totalAvailable files) R files R)
    simpa using this
  have hfloor := firstPass_floor (totalAvailable files) R files R hne i
    (by omega)
  rcases hfloor with hfloor | hfloor
  · left
    exact Nat.le_trans hfloor (hmono i)
  · -- the prefix of the first pass already sums to R; then the first
    -- pass as a whole sums to at least R, so its remainder is zero, the
    -- adjustment loop is a no-op, and the final plan has the same prefix
    have hfpsum := firstPass_sum (totalAvailable files) R files R
    have htake_le : (((firstPass (totalAvailable files) R files R).1.take i).map
        Prod.snd).sum ≤
        ((firstPass (totalAvailable files) R files R).1.map Prod.snd).sum := by
      conv_rhs =>
        rw [← List.take_append_drop i (firstPass (totalAvailable files) R files R).1]
      rw [List.map_append, List.sum_append]
      omega
    have hrem0 : (firstPass (totalAvailable files) R files R).2 = 0 := by
      omega
    have hplan_eq : plan = (firstPass (totalAvailable files) R files R).1 := by
      have hmk : makePlan files R =
          some (firstPass (totalAvailable files) R files R).1 := by
        unfold makePlan
        dsimp only
        rw [hrem0]
        rw [show adjustLoop R (firstPass (totalAvailable files) R files R).1 0 =
          some ((firstPass (totalAvailable files) R files R).1, 0) by
            cases R <;> rfl]
        rfl
      rw [hmk] at hplan
      injection hplan with h
      exact h.symm
    right
    rw [hplan_eq]
    exact hfloor

/-- Counterexample to C1 as stated: inventory `{fileA: 20, fileB: 1}`,
request 5.  The regime is proportional (`2 < 5 ≤ 21`) and both files are
nonempty, yet fileA's rounded share consumes the whole request
(`round(100/21) = 5`), so fileB — despite holding a question — is
allocated zero units. -/
theorem claim_C1_counterexample :
    2 < 5 ∧ 5 ≤ totalAvailable c1Files ∧
      (∀ qf ∈ c1Files, qf.questions ≠ []) ∧
      ¬ (∀ p ∈ (makePlan c1Files 5).getD [], 1 ≤ p.2) := by
  decide

/-- Witness for the amended C1 at the inventory `{fileA: 2, fileB: 2}`,
request 3. -/
theorem claim_C1_witness :
    ∃ plan, makePlan c1wFiles 3 = some plan ∧ plan.map Prod.fst = c1wFiles ∧
      ∀ i, i < plan.length →
        1 ≤ (plan.getD i dummyEntry).2 ∨
          ((plan.take i).map Prod.snd).sum = 3 :=
  claim_C1 c1wFiles 3 (by decide) (by decide) (by decide)

/-! ## The diversity walk -/

/-- Full characterization of the diversity walk, by induction along the
shuffled question list: starting from a selection whose seen-set is
exactly its sources and which is still short of `R`, the walk appends a
subsequence of the remaining list, keeps the selected sources
duplicate-free, never exceeds `R`, and either reaches `R` exactly or
exhausts the list having covered every source appearing in it. -/
theorem walkAux_cons_seen {R : Nat} {q : Question} {rest sel : List Question}
    {seen : List Nat} (h : q.source_file ∈ seen) :
    walkAux R (q :: rest) sel seen = walkAux R rest sel seen := by
  simp [walkAux, h]

theorem walkAux_cons_stop {R : Nat} {q : Question} {rest sel : List Question}
    {seen : List Nat} (h1 : q.source_file ∉ seen)
    (h2 : R ≤ (sel ++ [q]).length) :
    walkAux R (q :: rest) sel seen = sel ++ [q] := by
  have h2' : R ≤ sel.length + 1 := by simpa using h2
  simp [walkAux, h1, h2']

theorem walkAux_cons_go {R : Nat} {q : Question} {rest sel : List Question}
    {seen : List Nat} (h1 : q.source_file ∉ seen)
    (h2 : ¬ R ≤ (sel ++ [q]).length) :
    walkAux R (q :: rest) sel seen =
      walkAux R rest (sel ++ [q]) (q.source_file :: seen) := by
  have h2' : ¬ R ≤ sel.length + 1 := by simpa using h2
  simp [walkAux, h1, h2']

theorem walkAux_spec (R : Nat) :
    ∀ (l sel : List Question) (seen : List Nat),
      (∀ s, s ∈ seen ↔ s ∈ sel.map (fun q => q.source_file)) →
      (sel.map (fun q => q.source_file)).Nodup →
      sel.length < R →
      ∃ t, t.Sublist l ∧ walkAux R l sel seen = sel ++ t ∧
        ((walkAux R l sel seen).map (fun q => q.source_file)).Nodup ∧
        (walkAux R l sel seen).length ≤ R ∧
        ((walkAux R l sel seen).length = R ∨
          ∀ q ∈ l, q.source_file ∈
            (walkAux R l sel seen).map (fun q => q.source_file))
  | [], sel, seen, _, hnd, hlt =>
    ⟨[], List.nil_sublist [], (List.append_nil sel).symm, hnd,
      Nat.le_of_lt hlt, Or.inr (fun q hq => absurd hq (List.not_mem_nil q))⟩
  | q :: rest, sel, seen, hseen, hnd, hlt => by
    by_cases hmem : q.source_file ∈ seen
    · have heq : walkAux R (q :: rest) sel seen = walkAux R rest sel seen :=
        walkAux_cons_seen hmem
      obtain ⟨t, ht, he, h3, h4, h5⟩ := walkAux_spec R rest sel seen hseen hnd hlt
      refine ⟨t, ht.cons q, by rw [heq]; exact he, by rw [heq]; exact h3,
        by rw [heq]; exact h4, ?_⟩
      rw [heq]
      rcases h5 with h5 | h5
      · exact Or.inl h5
      · refine Or.inr (fun q' hq' => ?_)
        rcases List.mem_cons.mp hq' with hq' | hq'
        · subst hq'
          have hsel : q'.source_file ∈ sel.map (fun q => q.source_file) :=
            (hseen q'.source_file).mp hmem
          rw [he, List.map_append]
          exact List.mem_append_left _ hsel
        · exact h5 q' hq'
    · have hnotsel : q.source_file ∉ sel.map (fun q' => q'.source_file) :=
        fun hc => hmem ((hseen q.source_file).mpr hc)
      have hnd' : ((sel ++ [q]).map (fun q' => q'.source_file)).Nodup := by
        rw [List.map_append, List.nodup_append]
        refine ⟨hnd, List.nodup_singleton _, ?_⟩
        intro x hx hx'
        simp only [List.map_cons, List.map_nil, List.mem_singleton] at hx'
        subst hx'
        exact hnotsel hx
      by_cases hstop : R ≤ (sel ++ [q]).length
      · have heq : walkAux R (q :: rest) sel seen = sel ++ [q] :=
          walkAux_cons_stop hmem hstop
        have hlen : (sel ++ [q]).length = R := by
          rw [List.length_append, List.length_singleton]
          rw [List.length_append, List.length_singleton] at hstop
          omega
        refine ⟨[q], (List.nil_sublist rest).cons₂ q, heq,
          by rw [heq]; exact hnd', by rw [heq]; omega,
          Or.inl (by rw [heq]; exact hlen)⟩
      · have heq : walkAux R (q :: rest) sel seen =
            walkAux R rest (sel ++ [q]) (q.source_file :: seen) :=
          walkAux_cons_go hmem hstop
        have hseen' : ∀ s, s ∈ q.source_file :: seen ↔
            s ∈ (sel ++ [q]).map (fun q' => q'.source_file) := by
          intro s
          rw [List.map_append, List.mem_append, List.mem_cons]
          rw [hseen s]
          simp only [List.map_cons, List.map_nil, List.mem_singleton]
          tauto
        have hlt' : (sel ++ [q]).length < R := by omega
        obtain ⟨t, ht, he, h3, h4, h5⟩ :=
          walkAux_spec R rest (sel ++ [q]) (q.source_file :: seen) hseen' hnd' hlt'
        refine ⟨q :: t, ht.cons₂ q, ?_, by rw [heq]; exact h3,
          by rw [heq]; exact h4, ?_⟩
        · rw [heq, he, List.append_assoc]
          rfl
        · rw [heq]
          rcases h5 with h5 | h5
          · exact Or.inl h5
          · refine Or.inr (fun q' hq' => ?_)
            rcases List.mem_cons.mp hq' with hq' | hq'
            · subst hq'
              rw [he, List.map_append, List.map_append]
              refine List.mem_append_left _ (List.mem_append_right _ ?_)
              simp
            · exact h5 q' hq'

/-- In the diversity regime (with every file nonempty, distinct paths,
and `1 ≤ R ≤ fileCount`), the walk over any shuffle of the flattened
inventory collects exactly `R` questions from `R` distinct source
files. -/
theorem walk_diversity (shuffle1 : List Question → List Question)
    (files : List QFile) (R : Nat)
    (hs1 : ∀ l, (shuffle1 l).Perm l)
    (hpaths : (files.map (fun qf => qf.path)).Nodup)
    (hne : ∀ qf ∈ files, qf.questions ≠ [])
    (hsrc : ∀ qf ∈ files, ∀ q ∈ qf.questions, q.source_file = qf.path)
    (hR1 : 1 ≤ R) (hR2 : R ≤ files.length) :
    (walkAux R (shuffle1 (files.flatMap (fun qf => qf.questions))) [] []).length =
        R ∧
      ((walkAux R (shuffle1 (files.flatMap (fun qf => qf.questions))) [] []).map
        (fun q => q.source_file)).Nodup ∧
      (walkAux R (shuffle1 (files.flatMap (fun qf => qf.questions))) [] []).Sublist
        (shuffle1 (files.flatMap (fun qf => qf.questions))) := by
  obtain ⟨t, ht, he, h3, h4, h5⟩ :=
    walkAux_spec R (shuffle1 (files.flatMap (fun qf => qf.questions))) [] []
      (by simp) (by simp) (by simpa using hR1)
  have hw : walkAux R (shuffle1 (files.flatMap (fun qf => qf.questions))) [] [] =
      t := by simpa using he
  refine ⟨?_, h3, by rw [hw]; exact ht⟩
  rcases h5 with h5 | h5
  · exact h5
  · have hsub : ∀ qf ∈ files, qf.path ∈
        (walkAux R (shuffle1 (files.flatMap (fun qf => qf.questions))) [] []).map
          (fun q => q.source_file) := by
      intro qf hqf
      obtain ⟨q0, hq0⟩ : ∃ q0, q0 ∈ qf.questions := by
        cases hq : qf.questions with
        | nil => exact absurd hq (hne qf hqf)
        | cons a l => exact ⟨a, List.mem_cons_self a l⟩
      have hq0mem : q0 ∈ files.flatMap (fun qf => qf.questions) :=
        List.mem_flatMap.mpr ⟨qf, hqf, hq0⟩
      have hq0mem' : q0 ∈ shuffle1 (files.flatMap (fun qf => qf.questions)) :=
        (hs1 _).mem_iff.mpr hq0mem
      have hmem2 := h5 q0 hq0mem'
      rwa [hsrc qf hqf q0 hq0] at hmem2
    have hcard1 : (files.map (fun qf => qf.path)).toFinset.card = files.length := by
      rw [List.toFinset_card_of_nodup hpaths, List.length_map]
    have hsub2 : (files.map (fun qf => qf.path)).toFinset ⊆
        ((walkAux R (shuffle1 (files.flatMap (fun qf => qf.questions))) [] []).map
          (fun q => q.source_file)).toFinset := by
      intro x hx
      rw [List.mem_toFinset] at hx ⊢
      obtain ⟨qf, hqf, rfl⟩ := List.mem_map.mp hx
      exact hsub qf hqf
    have hcard2 := Finset.card_le_card hsub2
    have hle2 : ((walkAux R (shuffle1 (files.flatMap (fun qf => qf.questions)))
        [] []).map (fun q => q.source_file)).toFinset.card ≤
        (walkAux R (shuffle1 (files.flatMap (fun qf => qf.questions))) [] []).length := by
      refine Nat.le_trans (List.toFinset_card_le _) ?_
      rw [List.length_map]
    omega

/-! ## Sampling from a plan -/

theorem plan_flatMap_questions :
    ∀ plan : List (QFile × Nat),
      plan.flatMap (fun p => p.1.questions) =
        (plan.map Prod.fst).flatMap (fun qf => qf.questions)
  | [] => rfl
  | p :: rest => by
    simp only [List.flatMap_cons, List.map_cons]
    rw [plan_flatMap_questions rest]

theorem flatMap_sample_length
    (sample : List Question → Nat → List Question)
    (hsam : ∀ l n, n ≤ l.length →
      (sample l n).length = n ∧ (sample l n).Subperm l) :
    ∀ plan : List (QFile × Nat),
      (∀ p ∈ plan, p.2 ≤ p.1.questions.length) →
      (plan.flatMap (fun p => sample p.1.questions p.2)).length =
        (plan.map Prod.snd).sum
  | [], _ => rfl
  | p :: rest, h => by
    simp only [List.flatMap_cons, List.length_append, List.map_cons,
      List.sum_cons]
    rw [(hsam p.1.questions p.2 (h p (List.mem_cons_self ..))).1,
      flatMap_sample_length sample hsam rest
        (fun p' hp' => h p' (List.mem_cons_of_mem _ hp'))]

theorem flatMap_sample_sub
    (sample : List Question → Nat → List Question)
    (hsam : ∀ l n, n ≤ l.length →
      (sample l n).length = n ∧ (sample l n).Subperm l) :
    ∀ plan : List (QFile × Nat),
      (∀ p ∈ plan, p.2 ≤ p.1.questions.length) →
      ∀ q ∈ plan.flatMap (fun p => sample p.1.questions p.2),
        q ∈ plan.flatMap (fun p => p.1.questions)
  | [], _, q, hq => by simp at hq
  | p :: rest, h, q, hq => by
    simp only [List.flatMap_cons, List.mem_append] at hq ⊢
    rcases hq with hq | hq
    · exact Or.inl
        ((hsam p.1.questions p.2 (h p (List.mem_cons_self ..))).2.subset hq)
    · exact Or.inr (flatMap_sample_sub sample hsam rest
        (fun p' hp' => h p' (List.mem_cons_of_mem _ hp')) q hq)

theorem subperm_nodup {l₁ l₂ : List Question} (h : l₁.Subperm l₂)
    (h2 : l₂.Nodup) : l₁.Nodup := by
  obtain ⟨l, hp, hs⟩ := h
  exact hp.nodup_iff.mp (h2.sublist hs)

theorem flatMap_sample_nodup
    (sample : List Question → Nat → List Question)
    (hsam : ∀ l n, n ≤ l.length →
      (sample l n).length = n ∧ (sample l n).Subperm l) :
    ∀ plan : List (QFile × Nat),
      (∀ p ∈ plan, p.2 ≤ p.1.questions.length) →
      (plan.flatMap (fun p => p.1.questions)).Nodup →
      (plan.flatMap (fun p => sample p.1.questions p.2)).Nodup
  | [], _, _ => List.nodup_nil
  | p :: rest, h, hnd => by
    simp only [List.flatMap_cons] at hnd ⊢
    rw [List.nodup_append] at hnd ⊢
    obtain ⟨h1, h2, h3⟩ := hnd
    have hrest := fun p' hp' => h p' (List.mem_cons_of_mem _ hp')
    have hsp := (hsam p.1.questions p.2 (h p (List.mem_cons_self ..))).2
    refine ⟨subperm_nodup hsp h1,
      flatMap_sample_nodup sample hsam rest hrest h2, ?_⟩
    intro x hx hx'
    have hx2 : x ∈ p.1.questions := hsp.subset hx
    have hx2' : x ∈ rest.flatMap (fun p => p.1.questions) :=
      flatMap_sample_sub sample hsam rest hrest x hx'
    exact h3 hx2 hx2'

/-! ## C2: the allocation-conservation invariant -/

/-- C2: for every inventory (files nonempty by loading, paths distinct,
question objects distinct, each question owned by its file) and every
`R ≤ total`, and every outcome of the random choices, `select_questions`
returns exactly `min(R, total) = R` questions, none selected twice, each
belonging to some file of the inventory; in particular the result is
empty when `R = 0` and when there are no files. -/
theorem claim_C2 (shuffle1 shuffle2 : List Question → List Question)
    (sample : List Question → Nat → List Question)
    (files : List QFile) (R : Nat)
    (hs1 : ∀ l, (shuffle1 l).Perm l) (hs2 : ∀ l, (shuffle2 l).Perm l)
    (hsam : ∀ l n, n ≤ l.length →
      (sample l n).length = n ∧ (sample l n).Subperm l)
    (hpaths : (files.map (fun qf => qf.path)).Nodup)
    (hne : ∀ qf ∈ files, qf.questions ≠ [])
    (hsrc : ∀ qf ∈ files, ∀ q ∈ qf.questions, q.source_file = qf.path)
    (hnd : (files.flatMap (fun qf => qf.questions)).Nodup)
    (hR : R ≤ totalAvailable files) :
    ∃ l, selectQuestions shuffle1 shuffle2 sample files R = some l ∧
      l.length = min R (totalAvailable files) ∧
      l.Nodup ∧
      (∀ q ∈ l, ∃ qf ∈ files, q ∈ qf.questions) ∧
      (R = 0 → l = []) ∧ (files = [] → l = []) := by
  by_cases hemp : files.isEmpty
  · have hfe : files = [] := List.isEmpty_iff.mp hemp
    subst hfe
    have hT : totalAvailable ([] : List QFile) = 0 := rfl
    have hR0 : R = 0 := by rw [hT] at hR; omega
    subst hR0
    exact ⟨[], by simp [selectQuestions], by simp, List.nodup_nil,
      by simp, fun _ => rfl, fun _ => rfl⟩
  · have hfne : files ≠ [] := fun h => hemp (List.isEmpty_iff.mpr h)
    have hndsh : (shuffle1 (files.flatMap (fun qf => qf.questions))).Nodup :=
      (hs1 _).nodup_iff.mpr hnd
    by_cases hreg : R ≤ files.length
    · -- diversity regime
      have hsel : selectQuestions shuffle1 shuffle2 sample files R =
          some ((shuffle2 (walkAux R
            (shuffle1 (files.flatMap (fun qf => qf.questions))) [] [])).take R) := by
        unfold selectQuestions
        rw [if_neg (by simpa using hemp)]
        dsimp only
        rw [if_pos hreg]
      by_cases hR0 : R = 0
      · subst hR0
        refine ⟨[], by rw [hsel]; rw [List.take_zero], by simp, List.nodup_nil,
          by simp, fun _ => rfl, fun h => absurd h hfne⟩
      · have hR1 : 1 ≤ R := by omega
        obtain ⟨hwlen, -, hwsub⟩ :=
          walk_diversity shuffle1 files R hs1 hpaths hne hsrc hR1 hreg
        have hwnd : (walkAux R
            (shuffle1 (files.flatMap (fun qf => qf.questions))) [] []).Nodup :=
          hndsh.sublist hwsub
        have hlen2 : (shuffle2 (walkAux R
            (shuffle1 (files.flatMap (fun qf => qf.questions))) [] [])).length = R := by
          rw [(hs2 _).length_eq, hwlen]
        refine ⟨_, hsel, ?_, ?_, ?_, fun h0 => absurd h0 hR0,
          fun h => absurd h hfne⟩
        · rw [List.length_take, hlen2, Nat.min_self, Nat.min_eq_left hR]
        · exact ((hs2 _).nodup_iff.mpr hwnd).sublist (List.take_sublist R _)
        · intro q hq
          have hq2 : q ∈ shuffle2 (walkAux R
              (shuffle1 (files.flatMap (fun qf => qf.questions))) [] []) :=
            (List.take_sublist R _).subset hq
          have hq3 := (hs2 _).mem_iff.mp hq2
          have hq4 := hwsub.subset hq3
          have hq5 := (hs1 _).mem_iff.mp hq4
          exact List.mem_flatMap.mp hq5
    · -- proportional regime
      have hreg' : files.length < R := by omega
      obtain ⟨plan, hplan, hfst, hle, hsum, -⟩ := makePlan_complete files R hR
      have hsel : selectQuestions shuffle1 shuffle2 sample files R =
          some ((shuffle2 (plan.flatMap
            (fun p => sample p.1.questions p.2))).take R) := by
        unfold selectQuestions
        rw [if_neg (by simpa using hemp)]
        dsimp only
        rw [if_neg hreg, hplan]
      have hplanflat : plan.flatMap (fun p => p.1.questions) =
          files.flatMap (fun qf => qf.questions) := by
        rw [plan_flatMap_questions, hfst]
      have hlenS : (plan.flatMap (fun p => sample p.1.questions p.2)).length = R := by
        rw [flatMap_sample_length sample hsam plan hle, hsum]
      have hndS : (plan.flatMap (fun p => sample p.1.questions p.2)).Nodup := by
        refine flatMap_sample_nodup sample hsam plan hle ?_
        rw [hplanflat]
        exact hnd
      have hlen2 : (shuffle2 (plan.flatMap
          (fun p => sample p.1.questions p.2))).length = R := by
        rw [(hs2 _).length_eq, hlenS]
      refine ⟨_, hsel, ?_, ?_, ?_,
        fun h0 => absurd (h0 ▸ hreg') (Nat.not_lt_zero _),
        fun h => absurd h hfne⟩
      · rw [List.length_take, hlen2, Nat.min_self, Nat.min_eq_left hR]
      · exact ((hs2 _).nodup_iff.mpr hndS).sublist (List.take_sublist R _)
      · intro q hq
        have hq2 := (List.take_sublist R _).subset hq
        have hq3 := (hs2 _).mem_iff.mp hq2
        have hq4 := flatMap_sample_sub sample hsam plan hle q hq3
        rw [hplanflat] at hq4
        exact List.mem_flatMap.mp hq4

/-- Witness for C2 at a three-file inventory with `R = 2`. -/
theorem claim_C2_witness :
    ∃ l, selectQuestions id id (fun l n => l.take n) c2wFiles 2 = some l ∧
      l.length = min 2 (totalAvailable c2wFiles) ∧
      l.Nodup ∧
      (∀ q ∈ l, ∃ qf ∈ c2wFiles, q ∈ qf.questions) ∧
      (2 = 0 → l = []) ∧ (c2wFiles = [] → l = []) :=
  claim_C2 id id (fun l n => l.take n) c2wFiles 2
    (fun l => List.Perm.refl l) (fun l => List.Perm.refl l)
    (fun l n hn => ⟨by rw [List.length_take]; omega,
      (List.take_sublist n l).subperm⟩)
    (by decide) (by decide) (by decide) (by decide) (by decide)

/-! ## C6: the diversity guarantee -/

/-- C6: in the diversity regime (`R ≤ fileCount`, every file nonempty,
distinct paths), for every outcome of the shuffles `select_questions`
draws at most one question per source file and the selection spans
exactly `R` distinct source files. -/
theorem claim_C6 (shuffle1 shuffle2 : List Question → List Question)
    (sample : List Question → Nat → List Question)
    (files : List QFile) (R : Nat)
    (hs1 : ∀ l, (shuffle1 l).Perm l) (hs2 : ∀ l, (shuffle2 l).Perm l)
    (hpaths : (files.map (fun qf => qf.path)).Nodup)
    (hne : ∀ qf ∈ files, qf.questions ≠ [])
    (hsrc : ∀ qf ∈ files, ∀ q ∈ qf.questions, q.source_file = qf.path)
    (hreg : R ≤ files.length) :
    ∃ l, selectQuestions shuffle1 shuffle2 sample files R = some l ∧
      l.length = R ∧
      (l.map (fun q => q.source_file)).Nodup ∧
      (l.map (fun q => q.source_file)).toFinset.card = R := by
  by_cases hemp : files.isEmpty
  · have hfe : files = [] := List.isEmpty_iff.mp hemp
    subst hfe
    have hR0 : R = 0 := by simpa using hreg
    subst hR0
    exact ⟨[], by simp [selectQuestions], rfl, List.nodup_nil, rfl⟩
  · have hsel : selectQuestions shuffle1 shuffle2 sample files R =
        some ((shuffle2 (walkAux R
          (shuffle1 (files.flatMap (fun qf => qf.questions))) [] [])).take R) := by
      unfold selectQuestions
      rw [if_neg (by simpa using hemp)]
      dsimp only
      rw [if_pos hreg]
    by_cases hR0 : R = 0
    · subst hR0
      refine ⟨[], ?_, rfl, List.nodup_nil, rfl⟩
      rw [hsel, List.take_zero]
    · have hR1 : 1 ≤ R := by omega
      obtain ⟨hwlen, hwnd, -⟩ :=
        walk_diversity shuffle1 files R hs1 hpaths hne hsrc hR1 hreg
      have hlen2 : (shuffle2 (walkAux R
          (shuffle1 (files.flatMap (fun qf => qf.questions))) [] [])).length = R := by
        rw [(hs2 _).length_eq, hwlen]
      have htake : (shuffle2 (walkAux R
          (shuffle1 (files.flatMap (fun qf => qf.questions))) [] [])).take R =
          shuffle2 (walkAux R
            (shuffle1 (files.flatMap (fun qf => qf.questions))) [] []) :=
        List.take_of_length_le (by omega)
      have hpm : ((shuffle2 (walkAux R
          (shuffle1 (files.flatMap (fun qf => qf.questions))) [] [])).map
            (fun q => q.source_file)).Perm
          ((walkAux R (shuffle1 (files.flatMap (fun qf => qf.questions)))
            [] []).map (fun q => q.source_file)) :=
        (hs2 _).map (fun q => q.source_file)
      have hnd2 : ((shuffle2 (walkAux R
          (shuffle1 (files.flatMap (fun qf => qf.questions))) [] [])).map
            (fun q => q.source_file)).Nodup :=
        hpm.nodup_iff.mpr hwnd
      refine ⟨_, hsel, ?_, ?_, ?_⟩
      · rw [htake, hlen2]
      · rw [htake]
        exact hnd2
      · rw [htake, List.toFinset_card_of_nodup hnd2, List.length_map, hlen2]

/-- Witness for C6 at the claim's scenario `{fileA: 3, fileB: 1}`,
`R = 2`: one question from each of the two files. -/
theorem claim_C6_witness :
    ∃ l, selectQuestions id id (fun l n => l.take n) c6wFiles 2 = some l ∧
      l.length = 2 ∧
      (l.map (fun q => q.source_file)).Nodup ∧
      (l.map (fun q => q.source_file)).toFinset.card = 2 :=
  claim_C6 id id (fun l n => l.take n) c6wFiles 2
    (fun l => List.Perm.refl l) (fun l => List.Perm.refl l)
    (by decide) (by decide) (by decide) (by decide)

end QRand
